import Mathlib

/-!
Verification development for the swarm-protocol Hybrid Clock
(`src/swarm-protocol/src/Clock.js`) together with the compact-codec,
Timestamp and Version-Vector layers it depends on.  `Clock.js` is
translated directly; the `Base64x64`, `Stamp` and `VV` modules are not
part of the available sources and are modelled from the specification.
-/

/-- A compact (Base64x64) value: a string over the 64-symbol alphabet
`0..9 A..Z _ a..z ~`, represented by the list of its symbol indices.
Missing trailing symbols are interpreted as zero symbols. -/
abbrev B64 : Type := List (Fin 64)

/-- Modelled from the spec: `Base64x64.compare` (§4.1) — lexicographic
comparison with the shorter string conceptually right-padded with zero
symbols; equals the numeric order of the decoded values. -/
def b64cmp : B64 → B64 → Ordering
  | [], b => if b.all (fun d => d == 0) then Ordering.eq else Ordering.lt
  | a :: as, [] => if (0 : Fin 64) < a then Ordering.gt else b64cmp as []
  | a :: as, b :: bs =>
    if a < b then Ordering.lt
    else if b < a then Ordering.gt
    else b64cmp as bs

/-- Little-endian numeric value of a list of base-64 digits (helper). -/
def valLE : B64 → Nat
  | [] => 0
  | d :: ds => d.val + 64 * valLE ds

/-- Numeric value of a compact string read as big-endian base-64 digits
at its own symbol length. -/
def b64val (s : B64) : Nat := valLE s.reverse

/-- Right-pad a compact string with zero symbols up to length `n`. -/
def padN (s : B64) (n : Nat) : B64 := s ++ List.replicate (n - s.length) 0

/-- Modelled from the spec: `Base64x64.decode` (§4.1) — the numeric value
of a (up to 11 symbol) compact string, a string shorter than full length
being implicitly zero-padded on the right. -/
def decode (s : B64) : Nat := b64val (padN s 11)

/-- Increment of a little-endian digit list, `none` on carry out of the
last digit (helper for `b64inc`). -/
def b64incRev : B64 → Option B64
  | [] => none
  | d :: ds =>
    if h : d.val < 63 then some (⟨d.val + 1, by omega⟩ :: ds)
    else
      match b64incRev ds with
      | some ds' => some (⟨0, by omega⟩ :: ds')
      | none => none

/-- Modelled from the spec: `Base64x64.increment` (§4.1) — the encoding of
`value + 1` at the same symbol length, failing (OverflowError) when the
length's capacity is exceeded. -/
def b64inc (s : B64) : Option B64 := (b64incRev s.reverse).map List.reverse

/-- Number of leading zero symbols of a compact string (helper). -/
def leadZ : B64 → Nat
  | [] => 0
  | d :: ds => if d = 0 then leadZ ds + 1 else 0

/-- Length of the common prefix of two compact strings, an exhausted
string continuing with implicit zero symbols (helper for `relax`). -/
def cpl : B64 → B64 → Nat
  | [], b => leadZ b
  | a :: as, [] => if a = 0 then cpl as [] + 1 else 0
  | a :: as, b :: bs => if a = b then cpl as bs + 1 else 0

/-- A compact string with its trailing zero symbols removed (helper). -/
def stripT : B64 → B64
  | [] => []
  | d :: ds =>
    match stripT ds with
    | [] => if d = 0 then [] else [d]
    | r => d :: r

/-- Drop trailing zero symbols, but never go below length `m` (helper). -/
def cutZeros (m : Nat) (s : B64) : B64 := s.take (max m (stripT s).length)

/-- Modelled from the spec: `relax(baseline, minLength)` (§4.2) — truncates
a value against a baseline down to at least `minLength` symbols, keeping at
least one symbol past the common prefix with the baseline so that the
result stays unambiguous relative to, and ordered against, the baseline;
trailing zero symbols are dropped down to `minLength`. -/
def relax (s baseline : B64) (minLength : Nat) : B64 :=
  let p := padN s 11
  let q := padN baseline 11
  cutZeros minLength (p.take (max minLength (cpl p q + 1)))

/-- Modelled from the spec: a Timestamp (§3) — a compact value paired with
the origin (replica identifier) that minted it (`Stamp.js` is not among
the available sources). -/
structure Stamp where
  value : B64
  origin : B64
deriving DecidableEq

/-- Modelled from the spec: Timestamp ordering (§3, §4.2 `compareTo`) —
value-major, origin as tie-break. -/
def Stamp.cmp (s t : Stamp) : Ordering :=
  match b64cmp s.value t.value with
  | Ordering.eq => b64cmp s.origin t.origin
  | o => o

/-- Strict comparison on Timestamps, the `gt` used by `Clock.js`. -/
def Stamp.gt (s t : Stamp) : Bool := Stamp.cmp s t == Ordering.gt

/-- Modelled from the spec: `Stamp.next(origin)` (§4.2) — a Timestamp whose
value is the increment of this value at its own length, with the given
origin; fails when the increment overflows. -/
def Stamp.next (s : Stamp) (origin : B64) : Option Stamp :=
  (b64inc s.value).map (fun v => { value := v, origin := origin })

/-- Days from a civil date (proleptic Gregorian calendar) to 1970-01-01;
helper for the calendar decomposition of a timestamp value. -/
def daysFromCivil (y m d : Int) : Int :=
  let y' := if m ≤ 2 then y - 1 else y
  let era := (if 0 ≤ y' then y' else y' - 399) / 400
  let yoe := y' - era * 400
  let mp := (m + 9) % 12
  let doy := (153 * mp + 2) / 5 + d - 1
  let doe := yoe * 365 + yoe / 4 - yoe / 100 + doy
  era * 146097 + doe - 719468

/-- Modelled from the spec: the millisecond reading (`Value.ms`) of a
timestamp value `MMDHmSssiii` (§3 Calendar Encoding): UTC month since
January 2010 (2 symbols), date, hour, minute, second (1 symbol each) and
millisecond (2 symbols), decoded to UTC milliseconds since the UNIX epoch
(`Base64x64.js` is not among the available sources). -/
def stampMs (v : B64) : Int :=
  let p := padN v 11
  let g : Nat → Int := fun i => ((p.getD i (0 : Fin 64)).val : Int)
  let months := g 0 * 64 + g 1
  let year := 2010 + months / 12
  let month := months % 12 + 1
  let day := g 2
  let hour := g 3
  let minute := g 4
  let second := g 5
  let ms := g 6 * 64 + g 7
  (((daysFromCivil year month day * 24 + hour) * 60 + minute) * 60 + second) * 1000 + ms

/-- Configuration options accepted by the `Clock` constructor; `none`
models an absent field. -/
structure ClockOptions where
  minLength : Option Nat
  learnOffset : Bool
  offset : Option Int
deriving DecidableEq

/-- The JS `|0` coercion: truncation to a signed 32-bit integer. -/
def toInt32 (x : Int) : Int := (x + 2 ^ 31) % 2 ^ 32 - 2 ^ 31

/-- Per-replica Hybrid Clock state (`Clock.js`): the last issued or
observed Timestamp, this replica's origin, the wall-clock offset and the
minimal acceptable value length. -/
structure Clock where
  last : Stamp
  origin : B64
  offset : Int
  minlen : Nat
deriving DecidableEq

/-- The `Clock` constructor (`Clock.js` lines 45-64).  `myNowMs` stands for
the wall-clock reading `Base64x64.now().ms` taken when `learnOffset` is
set.  JS truthiness makes a zero `minLength` or a zero `offset` behave
like an absent one, and `offset` passes through `|0`. -/
def Clock.create (now : Stamp) (options : Option ClockOptions) (myNowMs : Int) : Clock :=
  match options with
  | none => { last := now, origin := now.origin, offset := 0, minlen := 6 }
  | some o =>
    let minlen :=
      match o.minLength with
      | some m => if m ≠ 0 then m else 6
      | none => 6
    let offset :=
      if o.learnOffset then stampMs now.value - myNowMs
      else
        match o.offset with
        | some x => if x ≠ 0 then toInt32 x else 0
        | none => 0
    { last := now, origin := now.origin, offset := offset, minlen := minlen }

/-- `Clock.issueTimestamp` (`Clock.js` lines 67-80), with the value of the
wall-clock candidate `Stamp.now(this._origin, this._offset)` passed in
explicitly (the wall clock is an external input; two calls within the same
millisecond receive the same candidate value).  `none` models the
propagation of an increment overflow out of the fallback branch. -/
def Clock.issueTimestamp (c : Clock) (nowValue : B64) : Option (Stamp × Clock) :=
  if !(Stamp.gt { value := nowValue, origin := c.origin } c.last) then
    match Stamp.next c.last c.origin with
    | none => none
    | some n => some (n, { c with last := n })
  else if c.minlen < 8 then
    some ({ value := relax nowValue c.last.value c.minlen, origin := c.origin },
      { c with last := { value := relax nowValue c.last.value c.minlen, origin := c.origin } })
  else
    some ({ value := nowValue, origin := c.origin },
      { c with last := { value := nowValue, origin := c.origin } })

/-- `Clock.seeTimestamp` (`Clock.js` lines 82-87): adopt an observed
Timestamp as `last` exactly when it is strictly greater. -/
def Clock.seeTimestamp (c : Clock) (stamp : Stamp) : Clock :=
  if Stamp.gt stamp c.last then { c with last := stamp } else c

/-- One external interaction with a Hybrid Clock: an `issueTimestamp` call
(with its wall-clock candidate value) or a `seeTimestamp` call. -/
inductive ClockEv where
  | issue (nowValue : B64)
  | see (stamp : Stamp)
deriving DecidableEq

/-- Run a sequence of clock interactions, logging for each event the
Timestamp it contributed (`true` marks an `issueTimestamp` result,
`false` a stamp passed to `seeTimestamp`); `none` if an issue failed. -/
def runClock : Clock → List ClockEv → Option (Clock × List (Bool × Stamp))
  | c, [] => some (c, [])
  | c, ClockEv.issue v :: rest =>
    match c.issueTimestamp v with
    | none => none
    | some (r, c₁) =>
      match runClock c₁ rest with
      | none => none
      | some (cf, log) => some (cf, (true, r) :: log)
  | c, ClockEv.see s :: rest =>
    match runClock (c.seeTimestamp s) rest with
    | none => none
    | some (cf, log) => some (cf, (false, s) :: log)

/-- Issue twice in a row with the same wall-clock candidate value (two
calls within the same millisecond), returning both results. -/
def issueTwice (c : Clock) (v : B64) : Option (Stamp × Stamp) :=
  match c.issueTimestamp v with
  | none => none
  | some (r₁, c₁) =>
    match c₁.issueTimestamp v with
    | none => none
    | some (r₂, _) => some (r₁, r₂)

/-- Modelled from the spec: a Version Vector (§3, §4.5) — a map from
origin to the highest (numeric, decoded) Timestamp value seen from that
origin (`VV.js` is not among the available sources). -/
abbrev VV : Type := B64 → Option Nat

/-- Modelled from the spec: Version Vector `merge` (§4.5) — the per-origin
maximum of the two frontiers. -/
def vvMerge (a b : VV) : VV := fun o =>
  match a o, b o with
  | none, v => v
  | some x, none => some x
  | some x, some y => some (max x y)

/-- Fractional interpretation of a compact string: the rational in `[0,1)`
whose base-64 expansion is the string's symbols; comparison of compact
strings is comparison of these numbers. -/
def b64q : B64 → ℚ
  | [] => 0
  | d :: ds => ((d.val : ℚ) + b64q ds) / 64

theorem b64q_nonneg (s : B64) : 0 ≤ b64q s := by
  induction s with
  | nil => simp [b64q]
  | cons d ds ih =>
    simp only [b64q]
    exact div_nonneg (add_nonneg (by positivity) ih) (by norm_num)

theorem b64q_lt_one (s : B64) : b64q s < 1 := by
  induction s with
  | nil => norm_num [b64q]
  | cons d ds ih =>
    simp only [b64q]
    have hd : (d.val : ℚ) ≤ 63 := by exact_mod_cast Nat.le_of_lt_succ d.isLt
    rw [div_lt_one (by norm_num)]
    linarith

theorem b64q_zero_iff (s : B64) : (s.all (fun d => d == 0) = true) ↔ b64q s = 0 := by
  induction s with
  | nil => simp [b64q]
  | cons d ds ih =>
    simp only [List.all_cons, Bool.and_eq_true, beq_iff_eq, b64q]
    constructor
    · rintro ⟨hd, hds⟩
      subst hd
      rw [ih.mp hds]
      norm_num
    · intro h
      have h0 : (d.val : ℚ) + b64q ds = 0 := by
        have h64 : (64 : ℚ) ≠ 0 := by norm_num
        field_simp at h
        exact h
      have hd : (d.val : ℚ) = 0 := by nlinarith [b64q_nonneg ds, (by positivity : (0:ℚ) ≤ (d.val:ℚ))]
      have hds : b64q ds = 0 := by linarith
      have hdv : d.val = 0 := by exact_mod_cast hd
      exact ⟨Fin.ext hdv, ih.mpr hds⟩

theorem b64q_pos_of_not_zero {s : B64} (h : ¬ s.all (fun d => d == 0) = true) : 0 < b64q s := by
  have hne : b64q s ≠ 0 := fun h0 => h ((b64q_zero_iff s).mpr h0)
  exact lt_of_le_of_ne (b64q_nonneg s) (Ne.symm hne)

theorem b64cmp_spec : ∀ (a b : B64),
    (b64cmp a b = Ordering.lt ∧ b64q a < b64q b) ∨
    (b64cmp a b = Ordering.eq ∧ b64q a = b64q b) ∨
    (b64cmp a b = Ordering.gt ∧ b64q b < b64q a) := by
  intro a
  induction a with
  | nil =>
    intro b
    by_cases hz : b.all (fun d => d == 0) = true
    · right; left
      exact ⟨by simp [b64cmp, hz], by rw [(b64q_zero_iff b).mp hz]; simp [b64q]⟩
    · left
      refine ⟨by simp [b64cmp, hz], ?_⟩
      simpa [b64q] using b64q_pos_of_not_zero hz
  | cons d ds ih =>
    intro b
    cases b with
    | nil =>
      by_cases hd : (0 : Fin 64) < d
      · right; right
        refine ⟨by simp [b64cmp, hd], ?_⟩
        have h1 : (1 : ℚ) ≤ (d.val : ℚ) := by
          have : 1 ≤ d.val := hd
          exact_mod_cast this
        have h2 := b64q_nonneg ds
        simp only [b64q]
        positivity
      · have hd0 : d = 0 := by
          have : d.val = 0 := by
            have := Fin.lt_def.not.mp hd
            simp at this
            omega
          exact Fin.ext this
        subst hd0
        rcases ih [] with ⟨h1, h2⟩ | ⟨h1, h2⟩ | ⟨h1, h2⟩
        · exfalso
          have := b64q_nonneg ds
          simp [b64q] at h2
          linarith
        · right; left
          refine ⟨by simpa [b64cmp] using h1, ?_⟩
          simp [b64q] at h2 ⊢
          simp [h2]
        · right; right
          refine ⟨by simpa [b64cmp] using h1, ?_⟩
          simp [b64q] at h2 ⊢
          linarith
    | cons e es =>
      rcases Nat.lt_trichotomy d.val e.val with h | h | h
      · left
        have hlt : d < e := h
        refine ⟨by simp [b64cmp, hlt], ?_⟩
        have hde : (d.val : ℚ) + 1 ≤ (e.val : ℚ) := by exact_mod_cast h
        have hs := b64q_lt_one ds
        have ht := b64q_nonneg es
        simp only [b64q]
        have hnum : (d.val : ℚ) + b64q ds < (e.val : ℚ) + b64q es := by linarith
        linarith
      · have hde : d = e := Fin.ext h
        subst hde
        rcases ih es with ⟨h1, h2⟩ | ⟨h1, h2⟩ | ⟨h1, h2⟩
        · left
          refine ⟨by simpa [b64cmp, lt_irrefl] using h1, ?_⟩
          simp only [b64q]
          linarith
        · right; left
          refine ⟨by simpa [b64cmp, lt_irrefl] using h1, ?_⟩
          simp only [b64q, h2]
        · right; right
          refine ⟨by simpa [b64cmp, lt_irrefl] using h1, ?_⟩
          simp only [b64q]
          linarith
      · right; right
        have hlt : e < d := h
        have hnlt : ¬ d < e := by
          intro hc
          have : d.val < e.val := hc
          omega
        refine ⟨by simp [b64cmp, hlt, hnlt], ?_⟩
        have hde : (e.val : ℚ) + 1 ≤ (d.val : ℚ) := by exact_mod_cast h
        have hs := b64q_nonneg ds
        have ht := b64q_lt_one es
        simp only [b64q]
        linarith

theorem b64cmp_lt_iff (a b : B64) : b64cmp a b = Ordering.lt ↔ b64q a < b64q b := by
  rcases b64cmp_spec a b with ⟨h1, h2⟩ | ⟨h1, h2⟩ | ⟨h1, h2⟩
  · exact ⟨fun _ => h2, fun _ => h1⟩
  · rw [h1]
    constructor
    · intro h; cases h
    · intro h; linarith
  · rw [h1]
    constructor
    · intro h; cases h
    · intro h; linarith

theorem b64cmp_eq_iff (a b : B64) : b64cmp a b = Ordering.eq ↔ b64q a = b64q b := by
  rcases b64cmp_spec a b with ⟨h1, h2⟩ | ⟨h1, h2⟩ | ⟨h1, h2⟩
  · rw [h1]
    constructor
    · intro h; cases h
    · intro h; linarith
  · exact ⟨fun _ => h2, fun _ => h1⟩
  · rw [h1]
    constructor
    · intro h; cases h
    · intro h; linarith

theorem b64cmp_gt_iff (a b : B64) : b64cmp a b = Ordering.gt ↔ b64q b < b64q a := by
  rcases b64cmp_spec a b with ⟨h1, h2⟩ | ⟨h1, h2⟩ | ⟨h1, h2⟩
  · rw [h1]
    constructor
    · intro h; cases h
    · intro h; linarith
  · rw [h1]
    constructor
    · intro h; cases h
    · intro h; linarith
  · exact ⟨fun _ => h2, fun _ => h1⟩

theorem b64cmp_congr {a a' b b' : B64} (ha : b64q a = b64q a') (hb : b64q b = b64q b') :
    b64cmp a b = b64cmp a' b' := by
  rcases lt_trichotomy (b64q a) (b64q b) with h | h | h
  · rw [(b64cmp_lt_iff a b).mpr h, (b64cmp_lt_iff a' b').mpr (by rw [← ha, ← hb]; exact h)]
  · rw [(b64cmp_eq_iff a b).mpr h, (b64cmp_eq_iff a' b').mpr (by rw [← ha, ← hb]; exact h)]
  · rw [(b64cmp_gt_iff a b).mpr h, (b64cmp_gt_iff a' b').mpr (by rw [← ha, ← hb]; exact h)]

theorem b64q_replicate_zero (n : Nat) : b64q (List.replicate n (0 : Fin 64)) = 0 := by
  induction n with
  | zero => simp [b64q]
  | succ n ih => simp [List.replicate_succ, b64q, ih]

theorem b64q_append_zeros (s : B64) (n : Nat) :
    b64q (s ++ List.replicate n 0) = b64q s := by
  induction s with
  | nil => simp [b64q, b64q_replicate_zero]
  | cons d ds ih => simp [List.cons_append, b64q, ih]

theorem b64q_padN (s : B64) (n : Nat) : b64q (padN s n) = b64q s :=
  b64q_append_zeros s _

theorem stripT_spec (s : B64) : ∃ n, s = stripT s ++ List.replicate n 0 := by
  induction s with
  | nil => exact ⟨0, rfl⟩
  | cons d ds ih =>
    obtain ⟨n, hn⟩ := ih
    cases hr : stripT ds with
    | nil =>
      have hs : stripT (d :: ds) = if d = 0 then [] else [d] := by
        simp only [stripT, hr]
      rw [hr] at hn
      simp only [List.nil_append] at hn
      by_cases hd : d = 0
      · refine ⟨n + 1, ?_⟩
        rw [hs, if_pos hd, List.nil_append, List.replicate_succ, hd, ← hn]
      · refine ⟨n, ?_⟩
        rw [hs, if_neg hd]
        simp [hn]
    | cons r rs =>
      have hs : stripT (d :: ds) = d :: r :: rs := by
        simp only [stripT, hr]
      refine ⟨n, ?_⟩
      rw [hs, List.cons_append, ← hr, ← hn]

theorem b64q_take_of_stripT_le (s : B64) (j : Nat) (h : (stripT s).length ≤ j) :
    b64q (s.take j) = b64q s := by
  obtain ⟨n, hn⟩ := stripT_spec s
  conv_lhs => rw [hn]
  conv_rhs => rw [hn]
  rw [List.take_append_eq_append_take, List.take_of_length_le h, List.take_replicate,
    b64q_append_zeros, b64q_append_zeros]

theorem b64q_cutZeros (m : Nat) (s : B64) : b64q (cutZeros m s) = b64q s :=
  b64q_take_of_stripT_le s _ (le_max_right m _)

theorem b64cmp_take_cpl : ∀ (p q : B64) (k : Nat), cpl p q + 1 ≤ k →
    b64cmp (p.take k) q = b64cmp p q := by
  intro p
  induction p with
  | nil => intro q k _; rw [List.take_nil]
  | cons a as ih =>
    intro q k hk
    cases q with
    | nil =>
      by_cases ha : a = 0
      · have hc : cpl (a :: as) [] = cpl as [] + 1 := by simp [cpl, ha]
        rw [hc] at hk
        obtain ⟨k', rfl⟩ : ∃ k', k = k' + 1 := ⟨k - 1, by omega⟩
        rw [List.take_succ_cons]
        have hna : ¬ (0 : Fin 64) < a := by simp [ha]
        show b64cmp (a :: as.take k') [] = b64cmp (a :: as) []
        rw [b64cmp, b64cmp, if_neg hna, if_neg hna]
        exact ih [] k' (by omega)
      · obtain ⟨k', rfl⟩ : ∃ k', k = k' + 1 := ⟨k - 1, by omega⟩
        rw [List.take_succ_cons]
        have hpa : (0 : Fin 64) < a := by
          have : a.val ≠ 0 := fun hv => ha (Fin.ext hv)
          exact Fin.lt_def.mpr (by omega)
        show b64cmp (a :: as.take k') [] = b64cmp (a :: as) []
        rw [b64cmp, b64cmp, if_pos hpa, if_pos hpa]
    | cons b bs =>
      by_cases hab : a = b
      · subst hab
        have hc : cpl (a :: as) (a :: bs) = cpl as bs + 1 := by simp [cpl]
        rw [hc] at hk
        obtain ⟨k', rfl⟩ : ∃ k', k = k' + 1 := ⟨k - 1, by omega⟩
        rw [List.take_succ_cons]
        show b64cmp (a :: as.take k') (a :: bs) = b64cmp (a :: as) (a :: bs)
        simp only [b64cmp, if_neg (lt_irrefl a)]
        exact ih bs k' (by omega)
      · obtain ⟨k', rfl⟩ : ∃ k', k = k' + 1 := ⟨k - 1, by omega⟩
        rw [List.take_succ_cons]
        show b64cmp (a :: as.take k') (b :: bs) = b64cmp (a :: as) (b :: bs)
        rcases Nat.lt_trichotomy a.val b.val with h | h | h
        · simp only [b64cmp, if_pos (Fin.lt_def.mpr h)]
        · exact absurd (Fin.ext h) hab
        · have hnab : ¬ a < b := fun hc => by
            have := Fin.lt_def.mp hc
            omega
          simp only [b64cmp, if_neg hnab, if_pos (Fin.lt_def.mpr h)]

theorem relax_cmp (s base : B64) (m : Nat) :
    b64cmp (relax s base m) base = b64cmp s base := by
  unfold relax
  calc b64cmp (cutZeros m ((padN s 11).take (max m (cpl (padN s 11) (padN base 11) + 1)))) base
      = b64cmp ((padN s 11).take (max m (cpl (padN s 11) (padN base 11) + 1))) (padN base 11) :=
        b64cmp_congr (b64q_cutZeros _ _) (b64q_padN base 11).symm
    _ = b64cmp (padN s 11) (padN base 11) :=
        b64cmp_take_cpl _ _ _ (le_max_right m _)
    _ = b64cmp s base := b64cmp_congr (b64q_padN s 11) (b64q_padN base 11)

theorem valLE_append_singleton (xs : B64) (a : Fin 64) :
    valLE (xs ++ [a]) = valLE xs + a.val * 64 ^ xs.length := by
  induction xs with
  | nil => simp [valLE]
  | cons d ds ih =>
    have hda : ds.append [a] = ds ++ [a] := rfl
    simp only [List.cons_append, valLE, List.length_cons, hda, ih]
    ring

theorem b64q_eq_val (s : B64) : b64q s = (b64val s : ℚ) / 64 ^ s.length := by
  induction s with
  | nil => simp [b64q, b64val, valLE]
  | cons d ds ih =>
    have hv : b64val (d :: ds) = b64val ds + d.val * 64 ^ ds.length := by
      simp [b64val, List.reverse_cons, valLE_append_singleton, List.length_reverse]
    rw [show b64q (d :: ds) = ((d.val : ℚ) + b64q ds) / 64 from rfl, ih, hv, List.length_cons]
    push_cast
    field_simp
    ring

theorem b64incRev_spec : ∀ (r r' : B64), b64incRev r = some r' →
    r'.length = r.length ∧ valLE r' = valLE r + 1 := by
  intro r
  induction r with
  | nil => intro r' h; simp [b64incRev] at h
  | cons d ds ih =>
    intro r' h
    by_cases hd : d.val < 63
    · rw [b64incRev, dif_pos hd] at h
      obtain rfl := (Option.some.injEq _ _).mp h
      refine ⟨by simp, ?_⟩
      simp only [valLE]
      omega
    · rw [b64incRev, dif_neg hd] at h
      cases hr : b64incRev ds with
      | none => rw [hr] at h; cases h
      | some ds' =>
        rw [hr] at h
        obtain rfl := (Option.some.injEq _ _).mp h
        obtain ⟨hl, hv⟩ := ih ds' hr
        have hd63 : d.val = 63 := by omega
        refine ⟨by simp [hl], ?_⟩
        simp only [valLE, hv, hd63]
        omega

theorem b64inc_spec (s s' : B64) (h : b64inc s = some s') :
    s'.length = s.length ∧ b64val s' = b64val s + 1 := by
  unfold b64inc at h
  cases hr : b64incRev s.reverse with
  | none => rw [hr] at h; cases h
  | some w =>
    rw [hr] at h
    simp only [Option.map_some'] at h
    obtain rfl := (Option.some.injEq _ _).mp h
    obtain ⟨hl, hv⟩ := b64incRev_spec _ _ hr
    constructor
    · simpa using hl
    · simp only [b64val, List.reverse_reverse]
      exact hv

theorem b64inc_gt (s s' : B64) (h : b64inc s = some s') : b64cmp s' s = Ordering.gt := by
  obtain ⟨hl, hv⟩ := b64inc_spec s s' h
  apply (b64cmp_gt_iff _ _).mpr
  rw [b64q_eq_val, b64q_eq_val, hl, hv]
  have hD : (0 : ℚ) < 64 ^ s.length := by positivity
  rw [div_lt_div_iff₀ hD hD]
  push_cast
  nlinarith

theorem stamp_gt_iff (s t : Stamp) : Stamp.gt s t = true ↔
    (b64q t.value < b64q s.value ∨
      (b64q s.value = b64q t.value ∧ b64q t.origin < b64q s.origin)) := by
  unfold Stamp.gt Stamp.cmp
  cases hv : b64cmp s.value t.value with
  | lt =>
    have hq := (b64cmp_lt_iff _ _).mp hv
    simp only [beq_iff_eq]
    constructor
    · intro h; cases h
    · rintro (h | ⟨h1, h2⟩) <;> [linarith; linarith]
  | eq =>
    have hq := (b64cmp_eq_iff _ _).mp hv
    cases ho : b64cmp s.origin t.origin with
    | lt =>
      have hqo := (b64cmp_lt_iff _ _).mp ho
      simp only [beq_iff_eq]
      constructor
      · intro h; cases h
      · rintro (h | ⟨h1, h2⟩) <;> [linarith; linarith]
    | eq =>
      have hqo := (b64cmp_eq_iff _ _).mp ho
      simp only [beq_iff_eq]
      constructor
      · intro h; cases h
      · rintro (h | ⟨h1, h2⟩) <;> [linarith; linarith]
    | gt =>
      have hqo := (b64cmp_gt_iff _ _).mp ho
      exact ⟨fun _ => Or.inr ⟨hq, hqo⟩, fun _ => rfl⟩
  | gt =>
    have hq := (b64cmp_gt_iff _ _).mp hv
    exact ⟨fun _ => Or.inl hq, fun _ => rfl⟩

theorem stamp_not_gt_iff (s t : Stamp) : Stamp.gt s t = false ↔
    (b64q s.value < b64q t.value ∨
      (b64q s.value = b64q t.value ∧ b64q s.origin ≤ b64q t.origin)) := by
  constructor
  · intro h
    rcases lt_trichotomy (b64q s.value) (b64q t.value) with hv | hv | hv
    · exact Or.inl hv
    · refine Or.inr ⟨hv, ?_⟩
      by_contra hno
      push_neg at hno
      have := (stamp_gt_iff s t).mpr (Or.inr ⟨hv, hno⟩)
      rw [h] at this
      cases this
    · have := (stamp_gt_iff s t).mpr (Or.inl hv)
      rw [h] at this
      cases this
  · intro h
    cases hb : Stamp.gt s t
    · rfl
    · have := (stamp_gt_iff s t).mp hb
      rcases h with h | ⟨h1, h2⟩ <;> rcases this with h' | ⟨h1', h2'⟩ <;> linarith

theorem stamp_gt_irrefl (s : Stamp) : Stamp.gt s s = false :=
  (stamp_not_gt_iff s s).mpr (Or.inr ⟨rfl, le_refl _⟩)

theorem stamp_gt_asymm {a b : Stamp} (h : Stamp.gt a b = true) : Stamp.gt b a = false := by
  apply (stamp_not_gt_iff b a).mpr
  rcases (stamp_gt_iff a b).mp h with h' | ⟨h1, h2⟩
  · exact Or.inl h'
  · exact Or.inr ⟨h1.symm, le_of_lt h2⟩

theorem stamp_gt_trans {a b c : Stamp} (h1 : Stamp.gt a b = true)
    (h2 : Stamp.gt b c = true) : Stamp.gt a c = true := by
  apply (stamp_gt_iff a c).mpr
  rcases (stamp_gt_iff a b).mp h1 with g1 | ⟨e1, o1⟩ <;>
    rcases (stamp_gt_iff b c).mp h2 with g2 | ⟨e2, o2⟩
  · exact Or.inl (lt_trans g2 g1)
  · exact Or.inl (by rw [← e2]; exact g1)
  · exact Or.inl (by rw [e1]; exact g2)
  · exact Or.inr ⟨e1.trans e2, lt_trans o2 o1⟩

theorem stamp_gt_of_gt_of_le {a b c : Stamp} (h1 : Stamp.gt a b = true)
    (h2 : Stamp.gt c b = false) : Stamp.gt a c = true := by
  apply (stamp_gt_iff a c).mpr
  rcases (stamp_gt_iff a b).mp h1 with g1 | ⟨e1, o1⟩ <;>
    rcases (stamp_not_gt_iff c b).mp h2 with g2 | ⟨e2, o2⟩
  · exact Or.inl (lt_trans g2 g1)
  · exact Or.inl (by rw [e2]; exact g1)
  · exact Or.inl (by rw [← e1] at g2; exact g2)
  · exact Or.inr ⟨e1.trans e2.symm, lt_of_le_of_lt o2 o1⟩

theorem stamp_le_trans {a b c : Stamp} (h1 : Stamp.gt a b = false)
    (h2 : Stamp.gt b c = false) : Stamp.gt a c = false := by
  apply (stamp_not_gt_iff a c).mpr
  rcases (stamp_not_gt_iff a b).mp h1 with g1 | ⟨e1, o1⟩ <;>
    rcases (stamp_not_gt_iff b c).mp h2 with g2 | ⟨e2, o2⟩
  · exact Or.inl (lt_trans g1 g2)
  · exact Or.inl (by rw [← e2]; exact g1)
  · exact Or.inl (by rw [e1]; exact g2)
  · exact Or.inr ⟨e1.trans e2, le_trans o1 o2⟩

theorem issueTimestamp_spec {c : Clock} {v : B64} {r : Stamp} {c' : Clock}
    (h : c.issueTimestamp v = some (r, c')) :
    Stamp.gt r c.last = true ∧ c' = { c with last := r } ∧ r.origin = c.origin := by
  unfold Clock.issueTimestamp at h
  cases hgt : Stamp.gt { value := v, origin := c.origin } c.last with
  | false =>
    rw [hgt] at h
    simp only [Bool.not_false, if_true] at h
    cases hn : Stamp.next c.last c.origin with
    | none => rw [hn] at h; cases h
    | some n =>
      rw [hn] at h
      simp only [Option.some.injEq, Prod.mk.injEq] at h
      obtain ⟨rfl, rfl⟩ := h
      unfold Stamp.next at hn
      cases hi : b64inc c.last.value with
      | none => rw [hi] at hn; cases hn
      | some w =>
        rw [hi] at hn
        simp only [Option.map_some', Option.some.injEq] at hn
        subst hn
        refine ⟨?_, rfl, rfl⟩
        apply (stamp_gt_iff _ _).mpr
        exact Or.inl ((b64cmp_gt_iff _ _).mp (b64inc_gt _ _ hi))
  | true =>
    rw [hgt] at h
    rw [Bool.not_true, if_neg Bool.false_ne_true] at h
    have hrel := relax_cmp v c.last.value c.minlen
    by_cases hm : c.minlen < 8
    · rw [if_pos hm] at h
      simp only [Option.some.injEq, Prod.mk.injEq] at h
      obtain ⟨rfl, rfl⟩ := h
      refine ⟨?_, rfl, rfl⟩
      apply (stamp_gt_iff _ _).mpr
      rcases (stamp_gt_iff _ _).mp hgt with hq | ⟨he, ho⟩
      · have : b64cmp v c.last.value = Ordering.gt := (b64cmp_gt_iff _ _).mpr hq
        exact Or.inl ((b64cmp_gt_iff _ _).mp (hrel.trans this))
      · have : b64cmp v c.last.value = Ordering.eq := (b64cmp_eq_iff _ _).mpr he
        exact Or.inr ⟨(b64cmp_eq_iff _ _).mp (hrel.trans this), ho⟩
    · rw [if_neg hm] at h
      simp only [Option.some.injEq, Prod.mk.injEq] at h
      obtain ⟨rfl, rfl⟩ := h
      exact ⟨hgt, rfl, rfl⟩

theorem issueTimestamp_isSome_iff (c : Clock) (v : B64) :
    (c.issueTimestamp v).isSome = true ↔
      (Stamp.gt { value := v, origin := c.origin } c.last = true ∨
        (b64inc c.last.value).isSome = true) := by
  unfold Clock.issueTimestamp
  cases hgt : Stamp.gt { value := v, origin := c.origin } c.last with
  | false =>
    simp only [Bool.not_false, if_true, Bool.false_eq_true, false_or]
    unfold Stamp.next
    cases hi : b64inc c.last.value with
    | none => simp
    | some w => simp
  | true =>
    simp only [Bool.not_true, if_false]
    by_cases hm : c.minlen < 8
    · rw [if_pos hm]
      simp
    · rw [if_neg hm]
      simp

theorem seeTimestamp_adopt {c : Clock} {s : Stamp} (h : Stamp.gt s c.last = true) :
    c.seeTimestamp s = { c with last := s } := by
  unfold Clock.seeTimestamp
  rw [if_pos h]

theorem seeTimestamp_keep {c : Clock} {s : Stamp} (h : Stamp.gt s c.last = false) :
    c.seeTimestamp s = c := by
  unfold Clock.seeTimestamp
  rw [h]
  simp

theorem seeTimestamp_last_ge (c : Clock) (s : Stamp) :
    Stamp.gt c.last (c.seeTimestamp s).last = false := by
  cases hb : Stamp.gt s c.last
  · rw [seeTimestamp_keep hb]
    exact stamp_gt_irrefl _
  · rw [seeTimestamp_adopt hb]
    exact stamp_gt_asymm hb

theorem seeTimestamp_s_le (c : Clock) (s : Stamp) :
    Stamp.gt s (c.seeTimestamp s).last = false := by
  cases hb : Stamp.gt s c.last
  · rw [seeTimestamp_keep hb]
    exact hb
  · rw [seeTimestamp_adopt hb]
    exact stamp_gt_irrefl _

theorem seeTimestamp_frame (c : Clock) (s : Stamp) :
    (c.seeTimestamp s).origin = c.origin ∧ (c.seeTimestamp s).offset = c.offset ∧
      (c.seeTimestamp s).minlen = c.minlen := by
  cases hb : Stamp.gt s c.last
  · rw [seeTimestamp_keep hb]
    exact ⟨rfl, rfl, rfl⟩
  · rw [seeTimestamp_adopt hb]
    exact ⟨rfl, rfl, rfl⟩

theorem runClock_spec : ∀ (evs : List ClockEv) (c c' : Clock) (log : List (Bool × Stamp)),
    runClock c evs = some (c', log) →
    Stamp.gt c.last c'.last = false ∧
    (∀ e ∈ log, Stamp.gt e.2 c'.last = false) ∧
    (∀ e ∈ log, e.1 = true → Stamp.gt e.2 c.last = true) ∧
    (∀ i j, (hi : i < log.length) → (hj : j < log.length) → i < j →
      (log.get ⟨j, hj⟩).1 = true →
      Stamp.gt (log.get ⟨j, hj⟩).2 (log.get ⟨i, hi⟩).2 = true) := by
  intro evs
  induction evs with
  | nil =>
    intro c c' log h
    simp only [runClock, Option.some.injEq, Prod.mk.injEq] at h
    obtain ⟨rfl, rfl⟩ := h
    refine ⟨stamp_gt_irrefl _, by simp, by simp, ?_⟩
    intro i j hi hj
    simp at hi
  | cons ev rest ih =>
    intro c c' log h
    cases ev with
    | issue v =>
      rw [runClock] at h
      cases hI : c.issueTimestamp v with
      | none => rw [hI] at h; cases h
      | some rc =>
        obtain ⟨r, c₁⟩ := rc
        rw [hI] at h
        dsimp only at h
        cases hR : runClock c₁ rest with
        | none => rw [hR] at h; cases h
        | some p =>
          obtain ⟨cf, log'⟩ := p
          rw [hR] at h
          simp only [Option.some.injEq, Prod.mk.injEq] at h
          obtain ⟨rfl, rfl⟩ := h
          obtain ⟨hgt, rfl, -⟩ := issueTimestamp_spec hI
          obtain ⟨ih1, ih2, ih3, ih4⟩ := ih _ _ _ hR
          have hrle : Stamp.gt r cf.last = false := ih1
          refine ⟨?_, ?_, ?_, ?_⟩
          · cases hb : Stamp.gt c.last cf.last
            · rfl
            · have hcon := stamp_gt_trans hgt hb
              rw [hrle] at hcon
              cases hcon
          · intro e he
            rcases List.mem_cons.mp he with rfl | he'
            · exact hrle
            · exact ih2 e he'
          · intro e he het
            rcases List.mem_cons.mp he with rfl | he'
            · exact hgt
            · exact stamp_gt_trans (ih3 e he' het) hgt
          · intro i j hi hj hij hjt
            cases i with
            | zero =>
              cases j with
              | zero => omega
              | succ j' =>
                have hj' : j' < log'.length := by
                  simpa using hj
                exact ih3 _ (List.get_mem log' j' hj') hjt
            | succ i' =>
              cases j with
              | zero => omega
              | succ j' =>
                have hi' : i' < log'.length := by simpa using hi
                have hj' : j' < log'.length := by simpa using hj
                exact ih4 i' j' hi' hj' (by omega) hjt
    | see s =>
      rw [runClock] at h
      cases hR : runClock (c.seeTimestamp s) rest with
      | none => rw [hR] at h; cases h
      | some p =>
        obtain ⟨cf, log'⟩ := p
        rw [hR] at h
        simp only [Option.some.injEq, Prod.mk.injEq] at h
        obtain ⟨rfl, rfl⟩ := h
        obtain ⟨ih1, ih2, ih3, ih4⟩ := ih _ _ _ hR
        have hlast := seeTimestamp_last_ge c s
        have hsle := seeTimestamp_s_le c s
        refine ⟨?_, ?_, ?_, ?_⟩
        · exact stamp_le_trans hlast ih1
        · intro e he
          rcases List.mem_cons.mp he with rfl | he'
          · exact stamp_le_trans hsle ih1
          · exact ih2 e he'
        · intro e he het
          rcases List.mem_cons.mp he with rfl | he'
          · cases het
          · exact stamp_gt_of_gt_of_le (ih3 e he' het) hlast
        · intro i j hi hj hij hjt
          cases i with
          | zero =>
            cases j with
            | zero => omega
            | succ j' =>
              have hj' : j' < log'.length := by simpa using hj
              exact stamp_gt_of_gt_of_le (ih3 _ (List.get_mem log' j' hj') hjt) hsle
          | succ i' =>
            cases j with
            | zero => omega
            | succ j' =>
              have hi' : i' < log'.length := by simpa using hi
              have hj' : j' < log'.length := by simpa using hj
              exact ih4 i' j' hi' hj' (by omega) hjt

/-- C1: for every sequence of interleaved `issueTimestamp` and `seeTimestamp`
calls on a single Hybrid Clock, every `issueTimestamp` result is strictly
greater (under the Timestamp ordering) than every Timestamp previously
returned by `issueTimestamp` on that clock and every Timestamp previously
passed to `seeTimestamp` on that clock. -/
theorem clock_issue_monotone (c : Clock) (evs : List ClockEv) (c' : Clock)
    (log : List (Bool × Stamp)) (h : runClock c evs = some (c', log))
    (i j : Nat) (hi : i < log.length) (hj : j < log.length) (hij : i < j)
    (hissue : (log.get ⟨j, hj⟩).1 = true) :
    Stamp.gt (log.get ⟨j, hj⟩).2 (log.get ⟨i, hi⟩).2 = true :=
  (runClock_spec evs c c' log h).2.2.2 i j hi hj hij hissue

/-- Witness for C1: a concrete issue/see/issue trace; the final issued
Timestamp is strictly greater than the previously seen one. -/
theorem clock_issue_monotone_witness :
    Stamp.gt (Stamp.mk [4] [1]) (Stamp.mk [3] [2]) = true :=
  clock_issue_monotone
    (Clock.mk (Stamp.mk [0] [1]) [1] 0 6)
    [ClockEv.issue [2], ClockEv.see (Stamp.mk [3] [2]), ClockEv.issue [1]]
    (Clock.mk (Stamp.mk [4] [1]) [1] 0 6)
    [(true, Stamp.mk [2, 0, 0, 0, 0, 0] [1]),
     (false, Stamp.mk [3] [2]),
     (true, Stamp.mk [4] [1])]
    (by decide) 1 2 (by decide) (by decide) (by decide) (by decide)

/-- C3: when the wall-clock candidate is strictly greater than `last` and
`minLength` is below 8, `issueTimestamp` returns a Timestamp with the
candidate's origin and the candidate value relaxed against `last.value`
down to at least `minLength` symbols, and that Timestamp becomes `last`. -/
theorem clock_relax_branch (c : Clock) (v : B64)
    (hgt : Stamp.gt { value := v, origin := c.origin } c.last = true)
    (hm : c.minlen < 8) :
    c.issueTimestamp v =
      some ({ value := relax v c.last.value c.minlen, origin := c.origin },
        { c with last := { value := relax v c.last.value c.minlen, origin := c.origin } }) := by
  unfold Clock.issueTimestamp
  rw [hgt, Bool.not_true, if_neg Bool.false_ne_true, if_pos hm]

/-- Witness for C3 at a concrete clock and candidate value. -/
theorem clock_relax_branch_witness :
    Clock.issueTimestamp (Clock.mk (Stamp.mk [1] [1]) [1] 0 6) [2] =
      some ({ value := relax [2] [1] 6, origin := [1] },
        { last := { value := relax [2] [1] 6, origin := [1] }, origin := [1],
          offset := 0, minlen := 6 }) :=
  clock_relax_branch (Clock.mk (Stamp.mk [1] [1]) [1] 0 6) [2] (by decide) (by decide)

/-- C4: `seeTimestamp` adopts a strictly greater observed Timestamp as the
new `last` and leaves `last` unchanged otherwise; consequently a subsequent
`issueTimestamp` (whenever it returns) is strictly greater than the seen
Timestamp, even one ahead of the local wall clock. -/
theorem clock_see_spec (c : Clock) (s : Stamp) (v : B64) :
    (Stamp.gt s c.last = true → c.seeTimestamp s = { c with last := s }) ∧
    (Stamp.gt s c.last = false → c.seeTimestamp s = c) ∧
    (∀ r c₁, Stamp.gt s c.last = true →
      (c.seeTimestamp s).issueTimestamp v = some (r, c₁) → Stamp.gt r s = true) := by
  refine ⟨fun h => seeTimestamp_adopt h, fun h => seeTimestamp_keep h, ?_⟩
  intro r c₁ hgt hI
  obtain ⟨hr, -, -⟩ := issueTimestamp_spec hI
  rw [seeTimestamp_adopt hgt] at hr
  exact hr

/-- Witness for C4: seeing a Timestamp ahead of the wall clock adopts it,
and the next issue (with a lagging wall-clock candidate) exceeds it. -/
theorem clock_see_spec_witness :
    Clock.seeTimestamp (Clock.mk (Stamp.mk [1] [1]) [1] 0 6) (Stamp.mk [5] [2]) =
      { last := Stamp.mk [5] [2], origin := [1], offset := 0, minlen := 6 } ∧
    Stamp.gt (Stamp.mk [6] [1]) (Stamp.mk [5] [2]) = true :=
  ⟨(clock_see_spec (Clock.mk (Stamp.mk [1] [1]) [1] 0 6) (Stamp.mk [5] [2]) [1]).1 (by decide),
   (clock_see_spec (Clock.mk (Stamp.mk [1] [1]) [1] 0 6) (Stamp.mk [5] [2]) [1]).2.2
     (Stamp.mk [6] [1]) (Clock.mk (Stamp.mk [6] [1]) [1] 0 6) (by decide) (by decide)⟩

/-- C9: every Timestamp returned by `issueTimestamp` carries the clock's
own origin (on all branches), the origin established from the Timestamp
supplied at construction — even when `last` was adopted from a foreign
replica via `seeTimestamp`. -/
theorem clock_issue_origin (c : Clock) (v : B64) (r : Stamp) (c' : Clock)
    (h : c.issueTimestamp v = some (r, c')) :
    r.origin = c.origin ∧
      ∀ (now : Stamp) (opts : Option ClockOptions) (ms : Int),
        (Clock.create now opts ms).origin = now.origin := by
  refine ⟨(issueTimestamp_spec h).2.2, ?_⟩
  intro now opts ms
  cases opts <;> rfl

/-- Witness for C9: a clock whose `last` carries a foreign origin still
issues with its own origin. -/
theorem clock_issue_origin_witness :
    (Stamp.mk [4] [1]).origin = ([1] : B64) ∧
      ∀ (now : Stamp) (opts : Option ClockOptions) (ms : Int),
        (Clock.create now opts ms).origin = now.origin :=
  clock_issue_origin (Clock.mk (Stamp.mk [3] [2]) [1] 0 6) [1]
    (Stamp.mk [4] [1]) (Clock.mk (Stamp.mk [4] [1]) [1] 0 6) (by decide)

/-- C10: `issueTimestamp` and `seeTimestamp` mutate only the `last` field:
`origin`, `offset` and `minLength` are unchanged by every call. -/
theorem clock_frame (c : Clock) (v : B64) (s : Stamp) :
    (∀ r c', c.issueTimestamp v = some (r, c') →
      c'.origin = c.origin ∧ c'.offset = c.offset ∧ c'.minlen = c.minlen) ∧
    ((c.seeTimestamp s).origin = c.origin ∧ (c.seeTimestamp s).offset = c.offset ∧
      (c.seeTimestamp s).minlen = c.minlen) := by
  constructor
  · intro r c' h
    obtain ⟨-, rfl, -⟩ := issueTimestamp_spec h
    exact ⟨rfl, rfl, rfl⟩
  · exact seeTimestamp_frame c s

/-- Witness for C10 at a concrete clock, issue call and see call. -/
theorem clock_frame_witness :
    (([1] : B64) = [1] ∧ (7 : Int) = 7 ∧ (6 : Nat) = 6) ∧
    (((Clock.mk (Stamp.mk [1] [1]) [1] 7 6).seeTimestamp (Stamp.mk [3] [2])).origin = [1] ∧
      ((Clock.mk (Stamp.mk [1] [1]) [1] 7 6).seeTimestamp (Stamp.mk [3] [2])).offset = 7 ∧
      ((Clock.mk (Stamp.mk [1] [1]) [1] 7 6).seeTimestamp (Stamp.mk [3] [2])).minlen = 6) :=
  ⟨(clock_frame (Clock.mk (Stamp.mk [1] [1]) [1] 7 6) [2] (Stamp.mk [3] [2])).1
      (Stamp.mk [2, 0, 0, 0, 0, 0] [1]) (Clock.mk (Stamp.mk [2, 0, 0, 0, 0, 0] [1]) [1] 7 6)
      (by decide),
   (clock_frame (Clock.mk (Stamp.mk [1] [1]) [1] 7 6) [2] (Stamp.mk [3] [2])).2⟩

/-- C6 counterexample: on a clock whose `last` value is saturated at its
symbol length, a call whose candidate is not ahead falls back to the
logical increment, which overflows — `issueTimestamp` fails. -/
theorem clock_issue_total_cx :
    Clock.issueTimestamp (Clock.mk (Stamp.mk [63] [1]) [1] 0 6) [0] = none := by decide

/-- C6 (amended): `issueTimestamp` returns a Timestamp in every state
except the increment-overflow corner: it fails exactly when the candidate
is not strictly greater than `last` and `last.value` is already the
maximum for its symbol length. -/
theorem clock_issue_total_iff (c : Clock) (v : B64) :
    (c.issueTimestamp v).isSome = true ↔
      (Stamp.gt { value := v, origin := c.origin } c.last = true ∨
        (b64inc c.last.value).isSome = true) :=
  issueTimestamp_isSome_iff c v

/-- C2 counterexample: two issues within the same millisecond (identical
wall-clock candidate) where the second takes the wall-clock branch: the
results are distinct but the second value is not one greater than the
first — neither numerically nor as the logical increment `next`. -/
theorem clock_same_ms_cx :
    issueTwice (Clock.mk (Stamp.mk [1] [1]) [1] 0 6) [2, 2, 2, 2, 2, 2, 2, 2] =
      some (Stamp.mk [2, 2, 2, 2, 2, 2] [1], Stamp.mk [2, 2, 2, 2, 2, 2, 2] [1]) ∧
    decode [2, 2, 2, 2, 2, 2, 2] ≠ decode [2, 2, 2, 2, 2, 2] + 1 ∧
    Stamp.next (Stamp.mk [2, 2, 2, 2, 2, 2] [1]) [1] ≠
      some (Stamp.mk [2, 2, 2, 2, 2, 2, 2] [1]) := by
  refine ⟨by decide, by decide, by decide⟩

/-- C2 (amended): when the wall-clock candidate is not strictly greater
than `last`, `issueTimestamp` returns `last.next(origin)` (the logical
sequence bump with this replica's origin); and two issues within the same
millisecond return distinct Timestamps, the second strictly greater than
the first. -/
theorem clock_fallback_spec (c : Clock) (v : B64) :
    (Stamp.gt { value := v, origin := c.origin } c.last = false →
      c.issueTimestamp v =
        (Stamp.next c.last c.origin).map (fun n => (n, { c with last := n }))) ∧
    (∀ r₁ r₂, issueTwice c v = some (r₁, r₂) → r₁ ≠ r₂ ∧ Stamp.gt r₂ r₁ = true) := by
  constructor
  · intro h
    unfold Clock.issueTimestamp
    rw [h, Bool.not_false, if_pos rfl]
    cases hn : Stamp.next c.last c.origin
    · rfl
    · rfl
  · intro r₁ r₂ h
    unfold issueTwice at h
    cases h1 : c.issueTimestamp v with
    | none => rw [h1] at h; cases h
    | some p1 =>
      obtain ⟨r1', c₁⟩ := p1
      rw [h1] at h
      dsimp only at h
      cases h2 : c₁.issueTimestamp v with
      | none => rw [h2] at h; cases h
      | some p2 =>
        obtain ⟨r2', c₂⟩ := p2
        rw [h2] at h
        dsimp only at h
        simp only [Option.some.injEq, Prod.mk.injEq] at h
        obtain ⟨rfl, rfl⟩ := h
        obtain ⟨hg1, rfl, -⟩ := issueTimestamp_spec h1
        obtain ⟨hg2, -, -⟩ := issueTimestamp_spec h2
        refine ⟨?_, hg2⟩
        intro he
        subst he
        rw [stamp_gt_irrefl] at hg2
        cases hg2

/-- Witness for C2 (amended): a stalled clock falls back to the increment,
and repeated same-candidate issues stay distinct and increasing. -/
theorem clock_fallback_spec_witness :
    Clock.issueTimestamp (Clock.mk (Stamp.mk [3] [2]) [1] 0 6) [1] =
      (Stamp.next (Stamp.mk [3] [2]) [1]).map
        (fun n => (n, { last := n, origin := [1], offset := 0, minlen := 6 })) ∧
    (Stamp.mk [2, 2, 2, 2, 2, 2] [1] ≠ Stamp.mk [2, 2, 2, 2, 2, 2, 2] [1] ∧
      Stamp.gt (Stamp.mk [2, 2, 2, 2, 2, 2, 2] [1]) (Stamp.mk [2, 2, 2, 2, 2, 2] [1]) = true) :=
  ⟨(clock_fallback_spec (Clock.mk (Stamp.mk [3] [2]) [1] 0 6) [1]).1 (by decide),
   (clock_fallback_spec (Clock.mk (Stamp.mk [1] [1]) [1] 0 6) [2, 2, 2, 2, 2, 2, 2, 2]).2
     (Stamp.mk [2, 2, 2, 2, 2, 2] [1]) (Stamp.mk [2, 2, 2, 2, 2, 2, 2] [1]) (by decide)⟩

/-- C7: for valid compact strings (up to 11 symbols), the right-padded
lexicographic comparison equals the numeric comparison of the decoded
values. -/
theorem b64_compare_decode (a b : B64) (ha : a.length ≤ 11) (hb : b.length ≤ 11) :
    b64cmp a b = compare (decode a) (decode b) := by
  have hA : (padN a 11).length = 11 := by
    simp only [padN, List.length_append, List.length_replicate]
    omega
  have hB : (padN b 11).length = 11 := by
    simp only [padN, List.length_append, List.length_replicate]
    omega
  have hqa : b64q a = (decode a : ℚ) / 64 ^ 11 := by
    rw [← b64q_padN a 11, b64q_eq_val, hA]
    rfl
  have hqb : b64q b = (decode b : ℚ) / 64 ^ 11 := by
    rw [← b64q_padN b 11, b64q_eq_val, hB]
    rfl
  have hD : (0 : ℚ) < 64 ^ 11 := by positivity
  rcases Nat.lt_trichotomy (decode a) (decode b) with h | h | h
  · have hq : b64q a < b64q b := by
      rw [hqa, hqb, div_lt_div_iff₀ hD hD]
      have hc : (decode a : ℚ) < decode b := by exact_mod_cast h
      nlinarith
    rw [(b64cmp_lt_iff a b).mpr hq, Nat.compare_eq_lt.mpr h]
  · have hq : b64q a = b64q b := by rw [hqa, hqb, h]
    rw [(b64cmp_eq_iff a b).mpr hq, Nat.compare_eq_eq.mpr h]
  · have hq : b64q b < b64q a := by
      rw [hqa, hqb, div_lt_div_iff₀ hD hD]
      have hc : (decode b : ℚ) < decode a := by exact_mod_cast h
      nlinarith
    rw [(b64cmp_gt_iff a b).mpr hq, Nat.compare_eq_gt.mpr h]

/-- Witness for C7 at concrete compact strings of different lengths. -/
theorem b64_compare_decode_witness :
    b64cmp [1] [0, 63] = compare (decode [1]) (decode [0, 63]) :=
  b64_compare_decode [1] [0, 63] (by decide) (by decide)

/-- C8: Version Vector merge is commutative, idempotent and associative
(the join of the per-origin-maximum lattice). -/
theorem vv_merge_lattice (A B C : VV) :
    vvMerge A B = vvMerge B A ∧ vvMerge A A = A ∧
      vvMerge (vvMerge A B) C = vvMerge A (vvMerge B C) := by
  refine ⟨funext fun o => ?_, funext fun o => ?_, funext fun o => ?_⟩
  · cases hA : A o <;> cases hB : B o <;> simp [vvMerge, hA, hB, Nat.max_comm]
  · cases hA : A o <;> simp [vvMerge, hA]
  · cases hA : A o <;> cases hB : B o <;> cases hC : C o <;>
      simp [vvMerge, hA, hB, hC, Nat.max_assoc]

/-- C5 counterexample: with `minLength = 0` (JS-falsy, so ignored: the
default 6 applies) and an explicit offset of `2^31` (coerced by `|0` to
`-2^31`), the constructed state does not match the claimed one. -/
theorem clock_create_cx :
    (Clock.create (Stamp.mk [1] [2])
        (some (ClockOptions.mk (some 0) false (some (2 ^ 31)))) 0).minlen = 6 ∧
    (Clock.create (Stamp.mk [1] [2])
        (some (ClockOptions.mk (some 0) false (some (2 ^ 31)))) 0).minlen ≠ 0 ∧
    (Clock.create (Stamp.mk [1] [2])
        (some (ClockOptions.mk (some 0) false (some (2 ^ 31)))) 0).offset = -(2 ^ 31) ∧
    (Clock.create (Stamp.mk [1] [2])
        (some (ClockOptions.mk (some 0) false (some (2 ^ 31)))) 0).offset ≠ 2 ^ 31 := by
  refine ⟨by decide, by decide, by decide, by decide⟩

/-- C5 (amended): the constructor sets `last` and `origin` from the
supplied Timestamp; `minLength` is `options.minLength` when given and
nonzero, else 6; `offset` is the learned difference under `learnOffset`,
else the explicit offset coerced through `|0` when given (a zero explicit
offset yields 0), else 0. -/
theorem clock_create_spec (now : Stamp) (opts : Option ClockOptions) (ms : Int) :
    (Clock.create now opts ms).last = now ∧
    (Clock.create now opts ms).origin = now.origin ∧
    (opts = none →
      (Clock.create now opts ms).minlen = 6 ∧ (Clock.create now opts ms).offset = 0) ∧
    (∀ o, opts = some o →
      ((∀ m, o.minLength = some m → m ≠ 0 → (Clock.create now opts ms).minlen = m) ∧
        (o.minLength = none ∨ o.minLength = some 0 →
          (Clock.create now opts ms).minlen = 6) ∧
        (o.learnOffset = true →
          (Clock.create now opts ms).offset = stampMs now.value - ms) ∧
        (o.learnOffset = false →
          (∀ x, o.offset = some x → (Clock.create now opts ms).offset = toInt32 x) ∧
            (o.offset = none → (Clock.create now opts ms).offset = 0)))) := by
  cases opts with
  | none =>
    refine ⟨rfl, rfl, fun _ => ⟨rfl, rfl⟩, ?_⟩
    intro o ho
    cases ho
  | some o =>
    obtain ⟨mL, lO, oF⟩ := o
    refine ⟨rfl, rfl, ?_, ?_⟩
    · intro h
      cases h
    intro o' ho'
    injection ho' with ho''
    subst ho''
    refine ⟨?_, ?_, ?_, ?_⟩
    · intro m hm hm0
      have hm' : mL = some m := hm
      subst hm'
      simp [Clock.create, hm0]
    · intro hm
      rcases hm with hm | hm
      · have hm' : mL = none := hm
        subst hm'
        simp [Clock.create]
      · have hm' : mL = some 0 := hm
        subst hm'
        simp [Clock.create]
    · intro hl
      have hl' : lO = true := hl
      subst hl'
      simp [Clock.create]
    · intro hl
      have hl' : lO = false := hl
      subst hl'
      constructor
      · intro x hx
        have hx' : oF = some x := hx
        subst hx'
        by_cases hx0 : x = 0
        · subst hx0
          simp [Clock.create]
          decide
        · simp [Clock.create, hx0]
      · intro hx
        have hx' : oF = none := hx
        subst hx'
        simp [Clock.create]

/-- Witness for C5 (amended) at a concrete option record. -/
theorem clock_create_spec_witness :
    (Clock.create (Stamp.mk [1] [2])
        (some (ClockOptions.mk (some 5) false (some 7))) 0).last = Stamp.mk [1] [2] ∧
    (Clock.create (Stamp.mk [1] [2])
        (some (ClockOptions.mk (some 5) false (some 7))) 0).minlen = 5 ∧
    (Clock.create (Stamp.mk [1] [2])
        (some (ClockOptions.mk (some 5) false (some 7))) 0).offset = toInt32 7 :=
  ⟨(clock_create_spec (Stamp.mk [1] [2])
      (some (ClockOptions.mk (some 5) false (some 7))) 0).1,
   ((clock_create_spec (Stamp.mk [1] [2])
      (some (ClockOptions.mk (some 5) false (some 7))) 0).2.2.2
      (ClockOptions.mk (some 5) false (some 7)) rfl).1 5 rfl (by decide),
   (((clock_create_spec (Stamp.mk [1] [2])
      (some (ClockOptions.mk (some 5) false (some 7))) 0).2.2.2
      (ClockOptions.mk (some 5) false (some 7)) rfl).2.2.2 rfl).1 7 rfl⟩
